import Mathlib

/-!
Shallow embedding of the trending aggregation service of this repository
(`backend/app/services/trending`): the domain models (`models.py`), the
aggregation engine (`service.py`) and the three source adapters
(`sources/reddit.py`, `sources/github.py`, `sources/hackernews.py`).

Python dictionaries (metadata mappings, the cache map, the health map and
the `OrderedDict` used by the merge step) are embedded as association
lists with Python's assignment semantics: assigning to an existing key
replaces the value in place, assigning to a fresh key appends at the end.
`float` scores are embedded as rationals; wall-clock instants as natural
numbers; the `limit` arguments (non-negative in every scenario the service
exercises) as naturals.
-/

/-! ## Data model, operations and fixtures, embedded from the source -/

/-- A JSON-ish metadata value as stored by the adapters: Python `None`,
a string, or a number. -/
inductive MetaVal where
  | null
  | str (s : String)
  | num (q : Rat)
deriving DecidableEq

/-- `TrendingItem` from `models.py`: normalized representation of a single
trending entity. -/
structure TrendingItem where
  title : String
  url : String
  source : String
  score : Rat
  metadata : List (String × MetaVal) := []
deriving DecidableEq

/-- `SourceHealth` from `models.py`. -/
structure SourceHealth where
  source : String
  status : String
  message : Option String := none
  last_success_at : Option Nat := none
  last_error_at : Option Nat := none
deriving DecidableEq

/-- `SourceHealth.ok`: status `ok` with a success timestamp, message cleared. -/
def SourceHealth.ok (source : String) (now : Nat) : SourceHealth :=
  { source := source, status := "ok", message := none,
    last_success_at := some now, last_error_at := none }

/-- `SourceHealth.error`: status `error` with the failure message and an
error timestamp. -/
def SourceHealth.error (source : String) (message : String) (now : Nat) : SourceHealth :=
  { source := source, status := "error", message := some message,
    last_success_at := none, last_error_at := some now }

/-- Dictionary lookup (`d.get(k)` / `d[k]`): first binding of the key wins. -/
def alistGet {κ α : Type} [DecidableEq κ] : List (κ × α) → κ → Option α
  | [], _ => none
  | p :: rest, k => if p.1 = k then some p.2 else alistGet rest k

/-- Dictionary assignment (`d[k] = v`): replace in place when the key is
present, append otherwise.  This is exactly the (Ordered)dict update
semantics of Python ≥ 3.7. -/
def alistSet {κ α : Type} [DecidableEq κ] : List (κ × α) → κ → α → List (κ × α)
  | [], k, v => [(k, v)]
  | p :: rest, k, v => if p.1 = k then (k, v) :: rest else p :: alistSet rest k v

/-- Python's `str.lower()`, embedded as a character-wise lowering of the
string's character list (the URLs the service compares are ASCII, where
`Char.toLower` agrees with Python's lowering). -/
def strLower (s : String) : String := ⟨s.data.map Char.toLower⟩

/-- One iteration of the body of the aggregation loop in
`TrendingService._merge_results`: look the item's lower-cased URL up in the
ordered dictionary; keep the existing entry when its score is at least the
new item's score, otherwise store the new item under the key. -/
def mergeStep (agg : List (String × TrendingItem)) (item : TrendingItem) :
    List (String × TrendingItem) :=
  match alistGet agg (strLower item.url) with
  | some existing =>
      if item.score ≤ existing.score then agg
      else alistSet agg (strLower item.url) item
  | none => alistSet agg (strLower item.url) item

/-- The `aggregated` ordered dictionary of `_merge_results` after both
nested loops. -/
def aggregate (results : List (List TrendingItem)) : List (String × TrendingItem) :=
  results.foldl (fun agg items => items.foldl mergeStep agg) []

/-- Python's `sorted(..., key=lambda item: item.score, reverse=True)` is a
stable descending sort; `insertDesc` inserts an element after every already
placed element of strictly greater score. -/
def insertDesc (x : TrendingItem) : List TrendingItem → List TrendingItem
  | [] => [x]
  | y :: ys => if x.score < y.score then y :: insertDesc x ys else x :: y :: ys

/-- Stable sort by weighted score, descending. -/
def sortDesc : List TrendingItem → List TrendingItem
  | [] => []
  | x :: xs => insertDesc x (sortDesc xs)

/-- `TrendingService._merge_results`: merge, deduplicate and order the
per-source result lists by weighted score. -/
def mergeResults (results : List (List TrendingItem)) : List TrendingItem :=
  sortDesc ((aggregate results).map Prod.snd)

/-- The trace of the survivor of one URL group: `none` before the first item
of the group is seen, afterwards replaced exactly when a strictly greater
score arrives. -/
def survivorStep (o : Option TrendingItem) (i : TrendingItem) : Option TrendingItem :=
  match o with
  | some s => if i.score ≤ s.score then some s else some i
  | none => some i

def survivorFrom (o : Option TrendingItem) (l : List TrendingItem) : Option TrendingItem :=
  l.foldl survivorStep o

/-- The pairing invariant of the merge dictionary: every binding maps the
lower-cased URL of its item. -/
def KeyedByUrl (agg : List (String × TrendingItem)) : Prop :=
  ∀ p ∈ agg, p.1 = strLower p.2.url

/-- The identity and weight a `TrendingSource` adapter carries
(`sources/base.py`). -/
structure SourceSpec where
  name : String
  weight : Rat
deriving DecidableEq

/-- The outcome of one `source.fetch(limit)` invocation: a normalized item
list, or a raised exception carrying a message. -/
inductive FetchOutcome where
  | ok (items : List TrendingItem)
  | err (msg : String)
deriving DecidableEq

/-- The per-item weighting of `TrendingService._fetch_source`:
`replace(item, score=item.score * source.weight,
metadata={**dict(item.metadata), "raw_score": item.score})`. -/
def weightItem (weight : Rat) (item : TrendingItem) : TrendingItem :=
  { item with
    score := item.score * weight,
    metadata := alistSet item.metadata "raw_score" (MetaVal.num item.score) }

/-- The item list `TrendingService._fetch_source` contributes: the weighted
items on success, the empty list when the adapter raises. -/
def fetchSourceItems (s : SourceSpec) (outcome : FetchOutcome) : List TrendingItem :=
  match outcome with
  | .ok items => items.map (weightItem s.weight)
  | .err _ => []

/-- The health record `TrendingService._fetch_source` writes for the source:
`SourceHealth.ok` on success, `SourceHealth.error` with the message
`f"{source.name} fetch failed: {exc}"` on an exception. -/
def fetchSourceHealth (s : SourceSpec) (outcome : FetchOutcome) (now : Nat) : SourceHealth :=
  match outcome with
  | .ok _ => SourceHealth.ok s.name now
  | .err msg => SourceHealth.error s.name (s.name ++ " fetch failed: " ++ msg) now

/-- `_CacheEntry` from `service.py`. -/
structure CacheEntry where
  items : List TrendingItem
  expires_at : Nat
deriving DecidableEq

/-- `_CacheEntry.is_valid`: the entry is valid while `now < expires_at`. -/
def CacheEntry.is_valid (e : CacheEntry) (now : Nat) : Bool :=
  decide (now < e.expires_at)

/-- The mutable state of a `TrendingService` instance. -/
structure ServiceState where
  sources : List SourceSpec
  default_limit : Nat
  refresh_interval_seconds : Nat
  cache : List (Nat × CacheEntry) := []
  source_health : List (String × SourceHealth) := []
  last_refresh_at : Option Nat := none
deriving DecidableEq

/-- The environment a refresh runs against: for a source name and a fetch
limit, the outcome of that adapter invocation. -/
def FetchEnv : Type := String → Nat → FetchOutcome

/-- `TrendingService._refresh`: fetch every source concurrently at
`fetch_limit = max(limit, default_limit)`, merge, and store the full merged
list under both the `fetch_limit` and the `limit` cache keys with
`expires_at = now + refresh_interval_seconds`.  Returns the merged list, the
successor state, and the log of adapter invocations `(name, limit)`. -/
def refresh (st : ServiceState) (env : FetchEnv) (now : Nat) (limit : Nat) :
    List TrendingItem × ServiceState × List (String × Nat) :=
  let fetch_limit := max limit st.default_limit
  let results := st.sources.map (fun s => fetchSourceItems s (env s.name fetch_limit))
  let health := st.sources.foldl
    (fun h s => alistSet h s.name (fetchSourceHealth s (env s.name fetch_limit) now))
    st.source_health
  let merged := mergeResults results
  let entry : CacheEntry := { items := merged, expires_at := now + st.refresh_interval_seconds }
  (merged,
   { st with
     cache := alistSet (alistSet st.cache fetch_limit entry) limit entry,
     source_health := health,
     last_refresh_at := some now },
   st.sources.map (fun s => (s.name, fetch_limit)))

/-- `limit = limit or self._default_limit`: Python's `or` falls back to the
default both when the argument is absent (`None`) and when it is `0`. -/
def resolveLimit (st : ServiceState) (limit? : Option Nat) : Nat :=
  match limit? with
  | some l => if l = 0 then st.default_limit else l
  | none => st.default_limit

/-- `TrendingService.fetch_trending`: resolve the limit, serve a valid
cache entry at the exact limit key unless `force_refresh` is set, otherwise
refresh; either way return at most `limit` items (`items[:limit]`). -/
def fetch_trending (st : ServiceState) (env : FetchEnv) (now : Nat)
    (limit? : Option Nat) (force_refresh : Bool) :
    List TrendingItem × ServiceState × List (String × Nat) :=
  let limit := resolveLimit st limit?
  match alistGet st.cache limit with
  | some entry =>
      if entry.is_valid now && !force_refresh then
        (entry.items.take limit, st, [])
      else
        let r := refresh st env now limit
        (r.1.take limit, r.2.1, r.2.2)
  | none =>
      let r := refresh st env now limit
      (r.1.take limit, r.2.1, r.2.2)

/-- Python truthiness of an optional string: `None` and `""` are falsy. -/
def pyFalsy : Option String → Bool
  | none => true
  | some s => s == ""

/-- Python `a or b` on optional strings: `a` when truthy, else `b`. -/
def pyOrStr (a b : Option String) : Option String :=
  if pyFalsy a then b else a

/-- Python `float(x or 0)` on an optional number. -/
def pyNumOr0 : Option Rat → Rat
  | none => 0
  | some q => q

/-- An optional string stored into a metadata mapping. -/
def optStr : Option String → MetaVal
  | none => MetaVal.null
  | some s => MetaVal.str s

/-- An optional number stored into a metadata mapping. -/
def optNum : Option Rat → MetaVal
  | none => MetaVal.null
  | some q => MetaVal.num q

/-- One entry of `data["data"]["children"][i]["data"]` of the Reddit
listing payload. -/
structure RedditPost where
  title : Option String := none
  permalink : Option String := none
  score : Option Rat := none
  subreddit : Option String := none
  num_comments : Option Rat := none
deriving DecidableEq

/-- The loop body of `RedditTrendingSource.fetch`: posts with a falsy title
or permalink are skipped, the rest become items. -/
def redditItem (post : RedditPost) : Option TrendingItem :=
  if pyFalsy post.title || pyFalsy post.permalink then none
  else some
    { title := post.title.getD "",
      url := "https://www.reddit.com" ++ post.permalink.getD "",
      source := "reddit",
      score := pyNumOr0 post.score,
      metadata := [("subreddit", optStr post.subreddit),
                   ("comments", optNum post.num_comments)] }

/-- `RedditTrendingSource.fetch`: `limit` is only forwarded upstream as the
`limit` query parameter; every valid entry of the decoded payload becomes
an item — there is no local truncation. -/
def redditFetch (limit : Nat) (posts : List RedditPost) : List TrendingItem :=
  posts.filterMap redditItem

/-- One entry of `data["items"]` of the GitHub search payload. -/
structure GitHubRepo where
  full_name : Option String := none
  html_url : Option String := none
  stargazers_count : Option Rat := none
  description : Option String := none
  language : Option String := none
deriving DecidableEq

/-- The loop body of `GitHubTrendingSource.fetch`. -/
def githubItem (repo : GitHubRepo) : Option TrendingItem :=
  if pyFalsy repo.full_name || pyFalsy repo.html_url then none
  else some
    { title := repo.full_name.getD "",
      url := repo.html_url.getD "",
      source := "github",
      score := pyNumOr0 repo.stargazers_count,
      metadata := [("description", optStr repo.description),
                   ("language", optStr repo.language),
                   ("stars", optNum repo.stargazers_count)] }

/-- `GitHubTrendingSource.fetch`: iterates `data.get("items", [])[:limit]`. -/
def githubFetch (limit : Nat) (repos : List GitHubRepo) : List TrendingItem :=
  (repos.take limit).filterMap githubItem

/-- One entry of `data["hits"]` of the Algolia Hacker News payload. -/
structure HNHit where
  title : Option String := none
  story_title : Option String := none
  url : Option String := none
  story_url : Option String := none
  points : Option Rat := none
  author : Option String := none
  num_comments : Option Rat := none
deriving DecidableEq

/-- The loop body of `HackerNewsTrendingSource.fetch`:
`title = hit.get("title") or hit.get("story_title")`,
`url_value = hit.get("url") or hit.get("story_url")`. -/
def hnItem (hit : HNHit) : Option TrendingItem :=
  let title := pyOrStr hit.title hit.story_title
  let url_value := pyOrStr hit.url hit.story_url
  if pyFalsy title || pyFalsy url_value then none
  else some
    { title := title.getD "",
      url := url_value.getD "",
      source := "hackernews",
      score := pyNumOr0 hit.points,
      metadata := [("author", optStr hit.author),
                   ("comments", optNum hit.num_comments)] }

/-- `HackerNewsTrendingSource.fetch`: iterates `data.get("hits", [])[:limit]`. -/
def hnFetch (limit : Nat) (hits : List HNHit) : List TrendingItem :=
  (hits.take limit).filterMap hnItem

def itemW : TrendingItem :=
  { title := "Healthy Item", url := "https://healthy", source := "healthy",
    score := 5, metadata := [("category", MetaVal.str "tech")] }

def srcW : SourceSpec := { name := "healthy", weight := 1 }

def stW : ServiceState :=
  { sources := [srcW], default_limit := 1, refresh_interval_seconds := 60,
    cache := [], source_health := [], last_refresh_at := none }

def postA : RedditPost := { title := some "A", permalink := some "/r/a/1" }

def postB : RedditPost := { title := some "B", permalink := some "/r/b/2" }

def envOkW : FetchEnv := fun _ _ => FetchOutcome.ok [itemW]

def srcFailW : SourceSpec := { name := "failing", weight := 1 }

def stTwoW : ServiceState :=
  { sources := [srcW, srcFailW], default_limit := 2, refresh_interval_seconds := 120,
    cache := [], source_health := [], last_refresh_at := none }

def envMixW : FetchEnv := fun name _ =>
  if name = "failing" then FetchOutcome.err "boom" else FetchOutcome.ok [itemW]

def itemA : TrendingItem :=
  { title := "A", url := "https://a", source := "source_a", score := 10 }

def itemB8 : TrendingItem :=
  { title := "B", url := "https://b", source := "source_a", score := 8 }

def itemC : TrendingItem :=
  { title := "C", url := "https://c", source := "source_b", score := 12 }

def itemB15 : TrendingItem :=
  { title := "B", url := "https://B", source := "source_b", score := 15 }

def resultsW : List (List TrendingItem) := [[itemA, itemB8], [itemC, itemB15]]

/-! ## Theorems -/

theorem alistGet_alistSet_self {κ α : Type} [DecidableEq κ]
    (d : List (κ × α)) (k : κ) (v : α) :
    alistGet (alistSet d k v) k = some v := by
  induction d with
  | nil => simp [alistSet, alistGet]
  | cons p rest ih =>
    by_cases h : p.1 = k
    · simp [alistSet, h, alistGet]
    · simp [alistSet, h, alistGet, ih]

theorem alistGet_alistSet_ne {κ α : Type} [DecidableEq κ]
    (d : List (κ × α)) (k k2 : κ) (v : α) (h : k2 ≠ k) :
    alistGet (alistSet d k v) k2 = alistGet d k2 := by
  induction d with
  | nil => simp [alistSet, alistGet, Ne.symm h]
  | cons p rest ih =>
    by_cases hp : p.1 = k
    · subst hp
      simp [alistSet, alistGet, Ne.symm h]
    · simp only [alistSet, if_neg hp, alistGet]
      by_cases hp2 : p.1 = k2
      · rw [if_pos hp2, if_pos hp2]
      · rw [if_neg hp2, if_neg hp2, ih]

theorem alistGet_mem {κ α : Type} [DecidableEq κ]
    (d : List (κ × α)) (k : κ) (v : α) (h : alistGet d k = some v) :
    (k, v) ∈ d := by
  induction d with
  | nil => simp [alistGet] at h
  | cons p rest ih =>
    by_cases hp : p.1 = k
    · subst hp
      simp only [alistGet, eq_self_iff_true, if_true, Option.some.injEq] at h
      subst h
      exact List.mem_cons_self _ _
    · simp only [alistGet, if_neg hp] at h
      exact List.mem_cons_of_mem _ (ih h)

/-- Membership of a key among the keys of `alistSet d k v`. -/
theorem mem_keys_alistSet {κ α : Type} [DecidableEq κ]
    (d : List (κ × α)) (k k2 : κ) (v : α) :
    k2 ∈ (alistSet d k v).map Prod.fst ↔ k2 = k ∨ k2 ∈ d.map Prod.fst := by
  induction d with
  | nil => simp [alistSet]
  | cons p rest ih =>
    by_cases hp : p.1 = k
    · subst hp
      simp [alistSet]
    · simp only [alistSet, if_neg hp, List.map_cons, List.mem_cons, ih]
      tauto

/-- `alistSet` keeps the key list duplicate-free. -/
theorem nodup_keys_alistSet {κ α : Type} [DecidableEq κ]
    (d : List (κ × α)) (k : κ) (v : α)
    (h : (d.map Prod.fst).Nodup) : ((alistSet d k v).map Prod.fst).Nodup := by
  induction d with
  | nil => simp [alistSet]
  | cons p rest ih =>
    simp only [List.map_cons, List.nodup_cons] at h
    by_cases hp : p.1 = k
    · subst hp
      simpa [alistSet, List.nodup_cons] using h
    · simp only [alistSet, if_neg hp, List.map_cons, List.nodup_cons]
      refine ⟨?_, ih h.2⟩
      intro hmem
      rcases (mem_keys_alistSet rest k p.1 v).1 hmem with he | hm
      · exact hp he
      · exact h.1 hm

/-- With duplicate-free keys, lookup finds any listed binding. -/
theorem alistGet_of_mem_nodup {κ α : Type} [DecidableEq κ]
    (d : List (κ × α)) (k : κ) (v : α)
    (hnd : (d.map Prod.fst).Nodup) (h : (k, v) ∈ d) :
    alistGet d k = some v := by
  induction d with
  | nil => simp at h
  | cons p rest ih =>
    simp only [List.map_cons, List.nodup_cons] at hnd
    rcases List.mem_cons.1 h with he | hm
    · subst he
      simp [alistGet]
    · have hne : p.1 ≠ k := by
        intro he
        exact hnd.1 (he ▸ List.mem_map_of_mem Prod.fst hm)
      simp [alistGet, hne, ih hnd.2 hm]

theorem alistGet_isSome_iff_mem_keys {κ α : Type} [DecidableEq κ]
    (d : List (κ × α)) (k : κ) :
    (alistGet d k).isSome ↔ k ∈ d.map Prod.fst := by
  induction d with
  | nil => simp [alistGet]
  | cons p rest ih =>
    by_cases hp : p.1 = k
    · simp [alistGet, hp]
    · simp only [alistGet, if_neg hp, List.map_cons, List.mem_cons, ih]
      constructor
      · intro hm
        exact Or.inr hm
      · intro hm
        rcases hm with he | hm
        · exact absurd he.symm hp
        · exact hm

theorem alistGet_mergeStep (agg : List (String × TrendingItem)) (item : TrendingItem)
    (k : String) :
    alistGet (mergeStep agg item) k =
      if strLower item.url = k then survivorStep (alistGet agg k) item
      else alistGet agg k := by
  by_cases hk : strLower item.url = k
  · subst hk
    unfold mergeStep survivorStep
    cases hg : alistGet agg (strLower item.url) with
    | none => simp [alistGet_alistSet_self]
    | some existing =>
      by_cases hs : item.score ≤ existing.score
      · simp [hs, hg]
      · simp [hs, alistGet_alistSet_self]
  · rw [if_neg hk]
    unfold mergeStep
    cases hg : alistGet agg (strLower item.url) with
    | none => exact alistGet_alistSet_ne _ _ _ _ (fun he => hk he.symm)
    | some existing =>
      by_cases hs : item.score ≤ existing.score
      · simp [hs]
      · simp only [if_neg hs]
        exact alistGet_alistSet_ne _ _ _ _ (fun he => hk he.symm)

theorem alistGet_foldl_mergeStep (l : List TrendingItem)
    (agg : List (String × TrendingItem)) (k : String) :
    alistGet (l.foldl mergeStep agg) k =
      survivorFrom (alistGet agg k)
        (l.filter (fun i => decide (strLower i.url = k))) := by
  induction l generalizing agg with
  | nil => simp [survivorFrom]
  | cons i rest ih =>
    simp only [List.foldl_cons, ih, List.filter_cons]
    by_cases hk : strLower i.url = k
    · simp [hk, alistGet_mergeStep, survivorFrom]
    · simp [hk, alistGet_mergeStep, survivorFrom]

theorem survivorFrom_some (s : TrendingItem) (l : List TrendingItem) :
    ∃ t, survivorFrom (some s) l = some t := by
  induction l generalizing s with
  | nil => exact ⟨s, rfl⟩
  | cons i rest ih =>
    show ∃ t, survivorFrom (survivorStep (some s) i) rest = some t
    unfold survivorStep
    by_cases hs : i.score ≤ s.score
    · simpa [hs] using ih s
    · simpa [hs] using ih i

theorem survivorFrom_mem (s t : TrendingItem) (l : List TrendingItem)
    (h : survivorFrom (some s) l = some t) : t ∈ s :: l := by
  induction l generalizing s with
  | nil =>
    simp only [survivorFrom, List.foldl_nil, Option.some.injEq] at h
    simp [h]
  | cons i rest ih =>
    have h2 : survivorFrom (survivorStep (some s) i) rest = some t := h
    simp only [survivorStep] at h2
    by_cases hs : i.score ≤ s.score
    · rw [if_pos hs] at h2
      rcases List.mem_cons.1 (ih s h2) with he | hm
      · simp [he]
      · simp [List.mem_cons_of_mem, hm]
    · rw [if_neg hs] at h2
      rcases List.mem_cons.1 (ih i h2) with he | hm
      · simp [he]
      · simp [List.mem_cons_of_mem, hm]

theorem survivorFrom_max (s t : TrendingItem) (l : List TrendingItem)
    (h : survivorFrom (some s) l = some t) :
    s.score ≤ t.score ∧ ∀ i ∈ l, i.score ≤ t.score := by
  induction l generalizing s with
  | nil =>
    simp only [survivorFrom, List.foldl_nil, Option.some.injEq] at h
    subst h
    exact ⟨le_refl _, by simp⟩
  | cons i rest ih =>
    have h2 : survivorFrom (survivorStep (some s) i) rest = some t := h
    simp only [survivorStep] at h2
    by_cases hs : i.score ≤ s.score
    · rw [if_pos hs] at h2
      obtain ⟨h1, hall⟩ := ih s h2
      refine ⟨h1, ?_⟩
      intro j hj
      rcases List.mem_cons.1 hj with he | hm
      · exact he ▸ le_trans hs h1
      · exact hall j hm
    · rw [if_neg hs] at h2
      obtain ⟨h1, hall⟩ := ih i h2
      refine ⟨le_trans (le_of_lt (lt_of_not_le hs)) h1, ?_⟩
      intro j hj
      rcases List.mem_cons.1 hj with he | hm
      · exact he ▸ h1
      · exact hall j hm

theorem survivorFrom_first (s t : TrendingItem) (l : List TrendingItem)
    (h : survivorFrom (some s) l = some t) :
    (s :: l).find? (fun i => decide (t.score ≤ i.score)) = some t := by
  induction l generalizing s with
  | nil =>
    simp only [survivorFrom, List.foldl_nil, Option.some.injEq] at h
    subst h
    simp [List.find?]
  | cons i rest ih =>
    have h2 : survivorFrom (survivorStep (some s) i) rest = some t := h
    simp only [survivorStep] at h2
    by_cases hs : i.score ≤ s.score
    · rw [if_pos hs] at h2
      have ihs := ih s h2
      by_cases hps : t.score ≤ s.score
      · rw [List.find?_cons_of_pos _ (by simpa using hps)] at ihs
        rw [List.find?_cons_of_pos _ (by simpa using hps)]
        exact ihs
      · have hni : ¬ (t.score ≤ i.score) := fun hc => hps (le_trans hc hs)
        rw [List.find?_cons_of_neg _ (by simpa using hps)] at ihs
        rw [List.find?_cons_of_neg _ (by simpa using hps)]
        rw [List.find?_cons_of_neg _ (by simpa using hni)]
        exact ihs
    · rw [if_neg hs] at h2
      have ihi := ih i h2
      have hit : i.score ≤ t.score := (survivorFrom_max i t rest h2).1
      have hst : ¬ t.score ≤ s.score := fun hc => hs (le_trans hit hc)
      rw [List.find?_cons_of_neg _ (by simpa using hst)]
      exact ihi

theorem mem_alistSet {κ α : Type} [DecidableEq κ]
    (d : List (κ × α)) (k : κ) (v : α) (q : κ × α) (h : q ∈ alistSet d k v) :
    q = (k, v) ∨ q ∈ d := by
  induction d with
  | nil => simpa [alistSet] using h
  | cons p rest ih =>
    by_cases hp : p.1 = k
    · rw [alistSet, if_pos hp] at h
      rcases List.mem_cons.1 h with he | hm
      · exact Or.inl he
      · exact Or.inr (List.mem_cons_of_mem _ hm)
    · rw [alistSet, if_neg hp] at h
      rcases List.mem_cons.1 h with he | hm
      · exact Or.inr (he ▸ List.mem_cons_self _ _)
      · rcases ih hm with hq | hq
        · exact Or.inl hq
        · exact Or.inr (List.mem_cons_of_mem _ hq)

theorem keyedByUrl_mergeStep (agg : List (String × TrendingItem))
    (item : TrendingItem) (h : KeyedByUrl agg) : KeyedByUrl (mergeStep agg item) := by
  have hset : KeyedByUrl (alistSet agg (strLower item.url) item) := by
    intro q hq
    rcases mem_alistSet _ _ _ _ hq with he | hm
    · simp [he]
    · exact h q hm
  unfold mergeStep
  cases alistGet agg (strLower item.url) with
  | none => exact hset
  | some existing =>
    by_cases hs : item.score ≤ existing.score
    · simpa [hs] using h
    · simpa [hs] using hset

theorem nodup_keys_mergeStep (agg : List (String × TrendingItem))
    (item : TrendingItem) (h : (agg.map Prod.fst).Nodup) :
    ((mergeStep agg item).map Prod.fst).Nodup := by
  unfold mergeStep
  cases alistGet agg (strLower item.url) with
  | none => exact nodup_keys_alistSet _ _ _ h
  | some existing =>
    by_cases hs : item.score ≤ existing.score
    · simpa [hs] using h
    · simpa [hs] using nodup_keys_alistSet agg (strLower item.url) item h

theorem aggregate_eq_foldl_join (results : List (List TrendingItem)) :
    aggregate results = results.flatten.foldl mergeStep [] := by
  unfold aggregate
  generalize ([] : List (String × TrendingItem)) = agg
  induction results generalizing agg with
  | nil => simp
  | cons items rest ih => simp [List.flatten, List.foldl_append, ih]

theorem keyedByUrl_aggregate (results : List (List TrendingItem)) :
    KeyedByUrl (aggregate results) := by
  rw [aggregate_eq_foldl_join]
  generalize results.flatten = l
  have h : KeyedByUrl ([] : List (String × TrendingItem)) := by
    intro p hp
    simp at hp
  generalize hagg : ([] : List (String × TrendingItem)) = agg at h
  clear hagg
  induction l generalizing agg with
  | nil => exact h
  | cons i rest ih => exact ih _ (keyedByUrl_mergeStep agg i h)

theorem nodup_keys_aggregate (results : List (List TrendingItem)) :
    ((aggregate results).map Prod.fst).Nodup := by
  rw [aggregate_eq_foldl_join]
  generalize results.flatten = l
  have h : (([] : List (String × TrendingItem)).map Prod.fst).Nodup := by simp
  generalize hagg : ([] : List (String × TrendingItem)) = agg at h
  clear hagg
  induction l generalizing agg with
  | nil => exact h
  | cons i rest ih => exact ih _ (nodup_keys_mergeStep agg i h)

/-- The central merge lemma: in the final aggregation dictionary, the entry
at key `k` is exactly the survivor of the fold over the items of the `k`
group, in iteration order. -/
theorem alistGet_aggregate (results : List (List TrendingItem)) (k : String) :
    alistGet (aggregate results) k =
      survivorFrom none
        (results.flatten.filter (fun i => decide (strLower i.url = k))) := by
  rw [aggregate_eq_foldl_join]
  rw [alistGet_foldl_mergeStep]
  rfl

theorem insertDesc_perm (x : TrendingItem) (l : List TrendingItem) :
    List.Perm (insertDesc x l) (x :: l) := by
  induction l with
  | nil => exact List.Perm.refl _
  | cons y ys ih =>
    unfold insertDesc
    by_cases h : x.score < y.score
    · rw [if_pos h]
      exact (ih.cons y).trans (List.Perm.swap x y ys)
    · rw [if_neg h]

theorem sortDesc_perm (l : List TrendingItem) : List.Perm (sortDesc l) l := by
  induction l with
  | nil => exact List.Perm.refl _
  | cons x xs ih => exact (insertDesc_perm x (sortDesc xs)).trans (ih.cons x)

theorem pairwise_insertDesc (x : TrendingItem) (l : List TrendingItem)
    (h : l.Pairwise (fun a b => b.score ≤ a.score)) :
    (insertDesc x l).Pairwise (fun a b => b.score ≤ a.score) := by
  induction l with
  | nil => simp [insertDesc]
  | cons y ys ih =>
    rw [List.pairwise_cons] at h
    unfold insertDesc
    by_cases hlt : x.score < y.score
    · rw [if_pos hlt, List.pairwise_cons]
      refine ⟨?_, ih h.2⟩
      intro z hz
      rcases List.mem_cons.1 ((insertDesc_perm x ys).mem_iff.1 hz) with he | hm
      · rw [he]
        exact le_of_lt hlt
      · exact h.1 z hm
    · rw [if_neg hlt, List.pairwise_cons]
      refine ⟨?_, List.pairwise_cons.2 h⟩
      intro z hz
      rcases List.mem_cons.1 hz with he | hm
      · rw [he]
        exact le_of_not_lt hlt
      · exact le_trans (h.1 z hm) (le_of_not_lt hlt)

theorem sortDesc_pairwise (l : List TrendingItem) :
    (sortDesc l).Pairwise (fun a b => b.score ≤ a.score) := by
  induction l with
  | nil => simp [sortDesc]
  | cons x xs ih => exact pairwise_insertDesc x (sortDesc xs) ih

theorem filter_insertDesc (x : TrendingItem) (l : List TrendingItem) (s : Rat) :
    (insertDesc x l).filter (fun i => decide (i.score = s)) =
      (x :: l).filter (fun i => decide (i.score = s)) := by
  induction l with
  | nil => rfl
  | cons y ys ih =>
    unfold insertDesc
    by_cases hlt : x.score < y.score
    · rw [if_pos hlt]
      by_cases hx : x.score = s
      · have hy : ¬ (y.score = s) := by
          intro he
          rw [hx] at hlt
          rw [he] at hlt
          exact lt_irrefl s hlt
        simp only [List.filter_cons, ih]
        simp [hx, hy]
      · simp only [List.filter_cons, ih]
        simp [hx]
    · rw [if_neg hlt]

theorem filter_sortDesc (l : List TrendingItem) (s : Rat) :
    (sortDesc l).filter (fun i => decide (i.score = s)) =
      l.filter (fun i => decide (i.score = s)) := by
  induction l with
  | nil => rfl
  | cons x xs ih =>
    rw [show sortDesc (x :: xs) = insertDesc x (sortDesc xs) from rfl,
      filter_insertDesc]
    simp only [List.filter_cons, ih]

theorem mem_mergeResults (results : List (List TrendingItem)) (x : TrendingItem) :
    x ∈ mergeResults results ↔ x ∈ (aggregate results).map Prod.snd :=
  (sortDesc_perm _).mem_iff

theorem mem_aggregate_values (results : List (List TrendingItem)) (x : TrendingItem) :
    x ∈ (aggregate results).map Prod.snd ↔
      alistGet (aggregate results) (strLower x.url) = some x := by
  constructor
  · intro hx
    obtain ⟨p, hp, he⟩ := List.mem_map.1 hx
    have hk := keyedByUrl_aggregate results p hp
    obtain ⟨k, v⟩ := p
    simp only at he hk
    subst he
    subst hk
    exact alistGet_of_mem_nodup _ _ _ (nodup_keys_aggregate results) hp
  · intro h
    exact List.mem_map.2 ⟨(strLower x.url, x), alistGet_mem _ _ _ h, rfl⟩

theorem fetch_trending_take (st : ServiceState) (env : FetchEnv) (now : Nat)
    (limit? : Option Nat) (force : Bool) :
    ∃ l : List TrendingItem,
      (fetch_trending st env now limit? force).1 = List.take (resolveLimit st limit?) l := by
  cases halg : alistGet st.cache (resolveLimit st limit?) with
  | none =>
    refine ⟨(refresh st env now (resolveLimit st limit?)).1, ?_⟩
    simp only [fetch_trending, halg]
  | some entry =>
    by_cases hv : (entry.is_valid now && !force) = true
    · refine ⟨entry.items, ?_⟩
      simp only [fetch_trending, halg, if_pos hv]
    · refine ⟨(refresh st env now (resolveLimit st limit?)).1, ?_⟩
      simp only [fetch_trending, halg, if_neg hv]

theorem resolveLimit_pos (st : ServiceState) (k : Nat) (hk : 1 ≤ k) :
    resolveLimit st (some k) = k := by
  simp only [resolveLimit]
  rw [if_neg (by omega)]

/-- **C3**: for every `k ≥ 1`, whether served from cache or from a fresh
refresh, `fetch_trending` with `limit = k` returns at most `k` items. -/
theorem fetchTrending_respects_limit (st : ServiceState) (env : FetchEnv)
    (now k : Nat) (force : Bool) (hk : 1 ≤ k) :
    ((fetch_trending st env now (some k) force).1).length ≤ k := by
  obtain ⟨l, hl⟩ := fetch_trending_take st env now (some k) force
  rw [hl, resolveLimit_pos st k hk]
  exact List.length_take_le k l

/-- Witness for C3: a concrete call at `k = 3` on a one-source service. -/
theorem fetchTrending_respects_limit_witness :
    1 ≤ 3 ∧
    ((fetch_trending stW (fun _ _ => FetchOutcome.err "down") 0
        (some 3) false).1).length ≤ 3 :=
  ⟨by decide, fetchTrending_respects_limit stW _ 0 3 false (by decide)⟩

/-- **C10**: `fetch_trending` with `limit = 0` behaves exactly like a call
with the limit absent — Python's `limit or self._default_limit` replaces
any falsy limit by the configured default — and returns at most
`default_limit` items. -/
theorem fetchTrending_limit_zero (st : ServiceState) (env : FetchEnv) (now : Nat)
    (force : Bool) :
    fetch_trending st env now (some 0) force = fetch_trending st env now none force ∧
    ((fetch_trending st env now (some 0) force).1).length ≤ st.default_limit := by
  have hres : resolveLimit st (some 0) = st.default_limit := by
    simp [resolveLimit]
  constructor
  · simp [fetch_trending, resolveLimit]
  · obtain ⟨l, hl⟩ := fetch_trending_take st env now (some 0) force
    rw [hl, hres]
    exact List.length_take_le _ l

/-- **C9 counterexample**: `RedditTrendingSource.fetch` performs no local
truncation — a payload of two valid posts yields two items even at
`limit = 1`, so `limit` is not an upper bound on the Reddit adapter's
result length. -/
theorem redditFetch_exceeds_limit :
    ¬ ((redditFetch 1 [postA, postB]).length ≤ 1) := by
  decide

/-- **C9 amended**: the GitHub and Hacker News adapters return at most
`limit` items for every payload (they slice `[:limit]` locally); the Reddit
adapter instead returns one item per valid payload entry — its length is
the number of posts with truthy title and permalink, independent of
`limit`, which is only forwarded upstream as a query parameter. -/
theorem adapters_limit_bound (limit : Nat) (hl : 1 ≤ limit)
    (repos : List GitHubRepo) (hits : List HNHit) (posts : List RedditPost) :
    (githubFetch limit repos).length ≤ limit ∧
    (hnFetch limit hits).length ≤ limit ∧
    (redditFetch limit posts).length =
      (posts.filter (fun p => !(pyFalsy p.title || pyFalsy p.permalink))).length := by
  refine ⟨?_, ?_, ?_⟩
  · exact le_trans (List.length_filterMap_le _ _) (List.length_take_le _ _)
  · exact le_trans (List.length_filterMap_le _ _) (List.length_take_le _ _)
  · induction posts with
    | nil => rfl
    | cons p ps ih =>
      simp only [redditFetch, List.filterMap_cons, List.filter_cons] at ih ⊢
      by_cases hc : (pyFalsy p.title || pyFalsy p.permalink) = true
      · simp [redditItem, hc, ih]
      · simp [redditItem, hc, ih]

/-- Witness for the amended C9 at `limit = 2` on concrete payloads. -/
theorem adapters_limit_bound_witness :
    1 ≤ 2 ∧
    ((githubFetch 2 []).length ≤ 2 ∧
     (hnFetch 2 []).length ≤ 2 ∧
     (redditFetch 2 [postA]).length =
       ([postA].filter (fun p => !(pyFalsy p.title || pyFalsy p.permalink))).length) :=
  ⟨by decide, adapters_limit_bound 2 (by decide) [] [] [postA]⟩

/-- **C6**: every item surviving a successful fetch carries the weighted
score `raw.score * weight`, a `raw_score` metadata entry equal to the
pre-weight score, and all other metadata entries of the adapter item. -/
theorem fetchSource_weights_and_annotates (s : SourceSpec) (items : List TrendingItem)
    (x : TrendingItem) (hx : x ∈ fetchSourceItems s (FetchOutcome.ok items)) :
    (fetchSourceItems s (FetchOutcome.ok items)).length = items.length ∧
    ∃ raw ∈ items, x = weightItem s.weight raw ∧
      x.score = raw.score * s.weight ∧
      alistGet x.metadata "raw_score" = some (MetaVal.num raw.score) ∧
      ∀ key : String, key ≠ "raw_score" →
        alistGet x.metadata key = alistGet raw.metadata key := by
  constructor
  · exact List.length_map _ _
  · obtain ⟨raw, hraw, he⟩ := List.mem_map.1 hx
    subst he
    refine ⟨raw, hraw, rfl, rfl, alistGet_alistSet_self _ _ _, ?_⟩
    intro key hkey
    exact alistGet_alistSet_ne _ _ _ _ hkey

/-- Witness for C6 on a concrete item and source. -/
theorem fetchSource_weights_and_annotates_witness :
    (weightItem srcW.weight itemW ∈ fetchSourceItems srcW (FetchOutcome.ok [itemW])) ∧
    ((fetchSourceItems srcW (FetchOutcome.ok [itemW])).length = [itemW].length ∧
     ∃ raw ∈ [itemW], weightItem srcW.weight itemW = weightItem srcW.weight raw ∧
       (weightItem srcW.weight itemW).score = raw.score * srcW.weight ∧
       alistGet (weightItem srcW.weight itemW).metadata "raw_score" =
         some (MetaVal.num raw.score) ∧
       ∀ key : String, key ≠ "raw_score" →
         alistGet (weightItem srcW.weight itemW).metadata key =
           alistGet raw.metadata key) :=
  ⟨List.mem_cons_self _ _,
   fetchSource_weights_and_annotates srcW [itemW] (weightItem srcW.weight itemW)
     (List.mem_cons_self _ _)⟩

theorem refresh_cache_get (st : ServiceState) (env : FetchEnv) (now limit : Nat) :
    alistGet (refresh st env now limit).2.1.cache limit =
      some { items := (refresh st env now limit).1,
             expires_at := now + st.refresh_interval_seconds } ∧
    alistGet (refresh st env now limit).2.1.cache (max limit st.default_limit) =
      some { items := (refresh st env now limit).1,
             expires_at := now + st.refresh_interval_seconds } := by
  simp only [refresh]
  constructor
  · exact alistGet_alistSet_self _ _ _
  · by_cases he : max limit st.default_limit = limit
    · rw [he]
      exact alistGet_alistSet_self _ _ _
    · rw [alistGet_alistSet_ne _ limit (max limit st.default_limit) _ he]
      exact alistGet_alistSet_self _ _ _

/-- **C7**: every refresh fetches each adapter at `fetch_limit =
max(limit, default_limit)`, merges the full per-source results, and
replaces both the `fetch_limit` and the `limit` cache entries — whatever
the prior cache contents — with the full ranked merged list (no
truncation) and `expires_at = now + refresh_interval_seconds`. -/
theorem refresh_caches_full_list (st : ServiceState) (env : FetchEnv)
    (now limit : Nat) :
    (refresh st env now limit).2.2 =
      st.sources.map (fun s => (s.name, max limit st.default_limit)) ∧
    (refresh st env now limit).1 =
      mergeResults (st.sources.map
        (fun s => fetchSourceItems s (env s.name (max limit st.default_limit)))) ∧
    alistGet (refresh st env now limit).2.1.cache (max limit st.default_limit) =
      some { items := (refresh st env now limit).1,
             expires_at := now + st.refresh_interval_seconds } ∧
    alistGet (refresh st env now limit).2.1.cache limit =
      some { items := (refresh st env now limit).1,
             expires_at := now + st.refresh_interval_seconds } :=
  ⟨rfl, rfl, (refresh_cache_get st env now limit).2, (refresh_cache_get st env now limit).1⟩

theorem mergeResults_nil (results : List (List TrendingItem))
    (h : ∀ items ∈ results, items = []) : mergeResults results = [] := by
  unfold mergeResults
  rw [aggregate_eq_foldl_join, List.flatten_eq_nil_iff.2 h]
  rfl

/-- **C4**: `fetch_trending` never propagates an adapter failure — the
embedding of `_fetch_source` is total, every failing source contributes an
empty item list, and when every adapter invocation raises, a (forced) call
returns the empty result set instead of an exception. -/
theorem fetchTrending_never_fails :
    (∀ (s : SourceSpec) (msg : String),
       fetchSourceItems s (FetchOutcome.err msg) = []) ∧
    (∀ (st : ServiceState) (env : FetchEnv) (now : Nat) (limit? : Option Nat),
       (∀ name l, ∃ msg, env name l = FetchOutcome.err msg) →
       (fetch_trending st env now limit? true).1 = []) := by
  constructor
  · intro s msg
    rfl
  · intro st env now limit? henv
    have hmerged : (refresh st env now (resolveLimit st limit?)).1 = [] := by
      have h1 : (refresh st env now (resolveLimit st limit?)).1 =
          mergeResults (st.sources.map (fun s => fetchSourceItems s
            (env s.name (max (resolveLimit st limit?) st.default_limit)))) := rfl
      rw [h1]
      apply mergeResults_nil
      intro items hitems
      obtain ⟨s, hs, he⟩ := List.mem_map.1 hitems
      obtain ⟨msg, hmsg⟩ := henv s.name (max (resolveLimit st limit?) st.default_limit)
      rw [← he, hmsg]
      rfl
    cases halg : alistGet st.cache (resolveLimit st limit?) with
    | none => simp [fetch_trending, halg, hmerged]
    | some entry => simp [fetch_trending, halg, hmerged]

/-- Witness for C4: one configured source, an environment in which every
invocation raises; the forced call returns the empty list. -/
theorem fetchTrending_never_fails_witness :
    (∀ (name : String) (l : Nat), ∃ msg,
       (fun (_ : String) (_ : Nat) => FetchOutcome.err "down") name l =
         FetchOutcome.err msg) ∧
    (fetch_trending stW (fun _ _ => FetchOutcome.err "down") 0 (some 1) true).1 = [] :=
  ⟨fun _ _ => ⟨"down", rfl⟩,
   fetchTrending_never_fails.2 stW (fun _ _ => FetchOutcome.err "down") 0 (some 1)
     (fun _ _ => ⟨"down", rfl⟩)⟩

/-- **C8**: two successive calls at the same `k ≥ 1` within the refresh
interval, neither forced: the first call (cache cold at key `k`) performs
exactly one set of adapter invocations, and the second finds the valid
entry at the exact key `k`, returns the same slice, performs no adapter
invocation whatever the environment, and leaves the cache, health map and
last-refresh timestamp untouched. -/
theorem fetchTrending_cache_reuse (st : ServiceState) (env1 : FetchEnv)
    (now1 now2 k : Nat) (hk : 1 ≤ k)
    (hmiss : alistGet st.cache k = none)
    (htime : now2 < now1 + st.refresh_interval_seconds) :
    (fetch_trending st env1 now1 (some k) false).2.2 =
      st.sources.map (fun s => (s.name, max k st.default_limit)) ∧
    ∀ env2 : FetchEnv,
      fetch_trending (fetch_trending st env1 now1 (some k) false).2.1 env2 now2
          (some k) false =
        ((fetch_trending st env1 now1 (some k) false).1,
         (fetch_trending st env1 now1 (some k) false).2.1, []) := by
  have hres := resolveLimit_pos st k hk
  have hfirst : fetch_trending st env1 now1 (some k) false =
      ((refresh st env1 now1 k).1.take k, (refresh st env1 now1 k).2.1,
       (refresh st env1 now1 k).2.2) := by
    simp only [fetch_trending, hres, hmiss]
  constructor
  · rw [hfirst]
    rfl
  · intro env2
    rw [hfirst]
    have hget := (refresh_cache_get st env1 now1 k).1
    have hres1 : resolveLimit (refresh st env1 now1 k).2.1 (some k) = k :=
      resolveLimit_pos _ k hk
    have hvalid : CacheEntry.is_valid
        { items := (refresh st env1 now1 k).1,
          expires_at := now1 + st.refresh_interval_seconds } now2 = true := by
      simp [CacheEntry.is_valid, htime]
    simp [fetch_trending, hres1, hget, hvalid]

/-- Witness for C8: one source, default limit 1, interval 60; second call at
`now = 30` against a hostile environment still hits the cache. -/
theorem fetchTrending_cache_reuse_witness :
    (1 ≤ 1 ∧ alistGet stW.cache 1 = none ∧ 30 < 0 + stW.refresh_interval_seconds) ∧
    ((fetch_trending stW envOkW 0 (some 1) false).2.2 =
       stW.sources.map (fun s => (s.name, max 1 stW.default_limit)) ∧
     fetch_trending (fetch_trending stW envOkW 0 (some 1) false).2.1
         (fun _ _ => FetchOutcome.err "down") 30 (some 1) false =
       ((fetch_trending stW envOkW 0 (some 1) false).1,
        (fetch_trending stW envOkW 0 (some 1) false).2.1, [])) :=
  ⟨⟨by decide, rfl, by decide⟩,
   ⟨(fetchTrending_cache_reuse stW envOkW 0 30 1 (by decide) rfl (by decide)).1,
    (fetchTrending_cache_reuse stW envOkW 0 30 1 (by decide) rfl (by decide)).2
      (fun _ _ => FetchOutcome.err "down")⟩⟩

theorem mem_mergeResults_flatten (results : List (List TrendingItem)) (x : TrendingItem)
    (hx : x ∈ mergeResults results) : x ∈ results.flatten := by
  have h1 := (mem_aggregate_values results x).1 ((mem_mergeResults results x).1 hx)
  rw [alistGet_aggregate] at h1
  cases hgrp : results.flatten.filter (fun i => decide (strLower i.url = strLower x.url)) with
  | nil =>
    rw [hgrp] at h1
    simp [survivorFrom] at h1
  | cons a g =>
    rw [hgrp] at h1
    have h2 : survivorFrom (some a) g = some x := h1
    have h3 : x ∈ a :: g := survivorFrom_mem a x g h2
    rw [← hgrp] at h3
    exact (List.mem_filter.1 h3).1

theorem name_inj_of_nodup (sources : List SourceSpec)
    (hnd : (sources.map SourceSpec.name).Nodup) (s t : SourceSpec)
    (hs : s ∈ sources) (ht : t ∈ sources) (he : s.name = t.name) : s = t := by
  induction sources with
  | nil => simp at hs
  | cons p rest ih =>
    simp only [List.map_cons, List.nodup_cons] at hnd
    rcases List.mem_cons.1 hs with hs1 | hs2 <;> rcases List.mem_cons.1 ht with ht1 | ht2
    · rw [hs1, ht1]
    · subst hs1
      exact absurd (by rw [he]; exact List.mem_map_of_mem SourceSpec.name ht2) hnd.1
    · subst ht1
      exact absurd (by rw [← he]; exact List.mem_map_of_mem SourceSpec.name hs2) hnd.1
    · exact ih hnd.2 hs2 ht2

theorem foldl_health_get_notin (sources : List SourceSpec)
    (h0 : List (String × SourceHealth)) (f : SourceSpec → SourceHealth) (name : String)
    (hno : ∀ s ∈ sources, s.name ≠ name) :
    alistGet (sources.foldl (fun h s => alistSet h s.name (f s)) h0) name =
      alistGet h0 name := by
  induction sources generalizing h0 with
  | nil => rfl
  | cons p rest ih =>
    simp only [List.foldl_cons]
    rw [ih _ (fun s hs => hno s (List.mem_cons_of_mem _ hs))]
    exact alistGet_alistSet_ne _ _ _ _ (Ne.symm (hno p (List.mem_cons_self _ _)))

theorem foldl_health_get_mem (sources : List SourceSpec)
    (h0 : List (String × SourceHealth)) (f : SourceSpec → SourceHealth)
    (s : SourceSpec) (hs : s ∈ sources)
    (hnd : (sources.map SourceSpec.name).Nodup) :
    alistGet (sources.foldl (fun h s2 => alistSet h s2.name (f s2)) h0) s.name =
      some (f s) := by
  induction sources generalizing h0 with
  | nil => simp at hs
  | cons p rest ih =>
    simp only [List.map_cons, List.nodup_cons] at hnd
    simp only [List.foldl_cons]
    rcases List.mem_cons.1 hs with h1 | h2
    · subst h1
      have hno : ∀ t ∈ rest, t.name ≠ s.name :=
        fun t ht hte => hnd.1 (hte ▸ List.mem_map_of_mem SourceSpec.name ht)
      rw [foldl_health_get_notin rest (alistSet h0 s.name (f s)) f s.name hno]
      exact alistGet_alistSet_self _ _ _
    · exact ih _ h2 hnd.2

/-- **C5**: fault isolation of one raising source among distinctly named
configured sources.  The merged result only contains items contributed by
the non-failing sources; the failing source's health entry becomes `error`
with the non-null message `f"{name} fetch failed: {exc}"`; every
successfully fetched source's health entry becomes `ok` with the success
timestamp, whatever health state was recorded before. -/
theorem refresh_fault_isolation (st : ServiceState) (env : FetchEnv)
    (now limit : Nat) (bad : SourceSpec) (msg : String)
    (hnd : (st.sources.map SourceSpec.name).Nodup)
    (hbad : bad ∈ st.sources)
    (herr : ∀ l, env bad.name l = FetchOutcome.err msg)
    (hok : ∀ s ∈ st.sources, s.name ≠ bad.name →
      ∀ l, ∃ items, env s.name l = FetchOutcome.ok items) :
    (∀ x ∈ (refresh st env now limit).1,
       ∃ s ∈ st.sources, s.name ≠ bad.name ∧
         x ∈ fetchSourceItems s (env s.name (max limit st.default_limit))) ∧
    alistGet (refresh st env now limit).2.1.source_health bad.name =
      some (SourceHealth.error bad.name (bad.name ++ " fetch failed: " ++ msg) now) ∧
    (∀ s ∈ st.sources, s.name ≠ bad.name →
       alistGet (refresh st env now limit).2.1.source_health s.name =
         some (SourceHealth.ok s.name now)) := by
  have hhealth : (refresh st env now limit).2.1.source_health =
      st.sources.foldl (fun h s => alistSet h s.name
        (fetchSourceHealth s (env s.name (max limit st.default_limit)) now))
        st.source_health := rfl
  refine ⟨?_, ?_, ?_⟩
  · intro x hx
    have hx2 : x ∈ (st.sources.map (fun s =>
        fetchSourceItems s (env s.name (max limit st.default_limit)))).flatten :=
      mem_mergeResults_flatten _ x hx
    obtain ⟨items, hitems, hxin⟩ := List.mem_flatten.1 hx2
    obtain ⟨s, hsrc, he⟩ := List.mem_map.1 hitems
    by_cases hname : s.name = bad.name
    · exfalso
      have hsb : s = bad := name_inj_of_nodup st.sources hnd s bad hsrc hbad hname
      rw [← he, hsb, herr] at hxin
      simp [fetchSourceItems] at hxin
    · exact ⟨s, hsrc, hname, he ▸ hxin⟩
  · rw [hhealth, foldl_health_get_mem st.sources _ _ bad hbad hnd, herr]
    rfl
  · intro s hsrc hname
    rw [hhealth, foldl_health_get_mem st.sources _ _ s hsrc hnd]
    obtain ⟨items, hitems⟩ := hok s hsrc hname (max limit st.default_limit)
    rw [hitems]
    rfl

/-- Witness for C5 on a two-source service, one healthy and one raising. -/
theorem refresh_fault_isolation_witness :
    ((stTwoW.sources.map SourceSpec.name).Nodup ∧ srcFailW ∈ stTwoW.sources) ∧
    ((∀ x ∈ (refresh stTwoW envMixW 7 2).1,
        ∃ s ∈ stTwoW.sources, s.name ≠ srcFailW.name ∧
          x ∈ fetchSourceItems s (envMixW s.name (max 2 stTwoW.default_limit))) ∧
     alistGet (refresh stTwoW envMixW 7 2).2.1.source_health srcFailW.name =
       some (SourceHealth.error srcFailW.name
         (srcFailW.name ++ " fetch failed: " ++ "boom") 7) ∧
     (∀ s ∈ stTwoW.sources, s.name ≠ srcFailW.name →
        alistGet (refresh stTwoW envMixW 7 2).2.1.source_health s.name =
          some (SourceHealth.ok s.name 7))) :=
  ⟨⟨by decide, by decide⟩,
   refresh_fault_isolation stTwoW envMixW 7 2 srcFailW "boom" (by decide) (by decide)
     (fun _ => rfl)
     (by
       intro s hs hne l
       rcases List.mem_cons.1 hs with h1 | h2
       · subst h1
         exact ⟨[itemW], rfl⟩
       · rcases List.mem_cons.1 h2 with h3 | h4
         · exact absurd (by rw [h3]) hne
         · simp at h4)⟩

/-- **C1**: the merge step keeps exactly one item per lower-cased URL
group — lower-cased survivor URLs are pairwise distinct, every fetched
item's group has a survivor, and each survivor is the first item of its
group (sources in configuration order, items in list order) attaining the
group's maximum weighted score, so ties keep the first-seen item. -/
theorem mergeResults_dedupe (results : List (List TrendingItem)) :
    ((mergeResults results).map (fun i => strLower i.url)).Nodup ∧
    (∀ i ∈ results.flatten, ∃ t ∈ mergeResults results,
        strLower t.url = strLower i.url) ∧
    (∀ s ∈ mergeResults results,
       (∀ i ∈ results.flatten, strLower i.url = strLower s.url →
          i.score ≤ s.score) ∧
       (results.flatten.filter
           (fun i => decide (strLower i.url = strLower s.url))).find?
           (fun i => decide (s.score ≤ i.score)) = some s) := by
  refine ⟨?_, ?_, ?_⟩
  · have hperm : List.Perm ((mergeResults results).map (fun i => strLower i.url))
        (((aggregate results).map Prod.snd).map (fun i => strLower i.url)) :=
      (sortDesc_perm ((aggregate results).map Prod.snd)).map _
    refine hperm.nodup_iff.2 ?_
    have hvals : ((aggregate results).map Prod.snd).map (fun i => strLower i.url) =
        (aggregate results).map Prod.fst := by
      rw [List.map_map]
      exact List.map_congr_left
        (fun p hp => (keyedByUrl_aggregate results p hp).symm)
    rw [hvals]
    exact nodup_keys_aggregate results
  · intro i hi
    have hmem : i ∈ results.flatten.filter
        (fun j => decide (strLower j.url = strLower i.url)) :=
      List.mem_filter.2 ⟨hi, by simp⟩
    cases hgrp : results.flatten.filter
        (fun j => decide (strLower j.url = strLower i.url)) with
    | nil =>
      rw [hgrp] at hmem
      simp at hmem
    | cons a g =>
      obtain ⟨t, ht⟩ := survivorFrom_some a g
      have hget : alistGet (aggregate results) (strLower i.url) = some t := by
        rw [alistGet_aggregate, hgrp]
        exact ht
      have htg : t ∈ a :: g := survivorFrom_mem a t g ht
      have htkey : strLower t.url = strLower i.url := by
        rw [← hgrp] at htg
        have := (List.mem_filter.1 htg).2
        simpa using this
      refine ⟨t, ?_, htkey⟩
      refine (mem_mergeResults results t).2 ((mem_aggregate_values results t).2 ?_)
      rw [htkey]
      exact hget
  · intro s hs
    have hget := (mem_aggregate_values results s).1 ((mem_mergeResults results s).1 hs)
    rw [alistGet_aggregate] at hget
    cases hgrp : results.flatten.filter
        (fun i => decide (strLower i.url = strLower s.url)) with
    | nil =>
      rw [hgrp] at hget
      simp [survivorFrom] at hget
    | cons a g =>
      rw [hgrp] at hget
      have hget2 : survivorFrom (some a) g = some s := hget
      constructor
      · intro i hi hkey
        have hig : i ∈ a :: g := by
          rw [← hgrp]
          exact List.mem_filter.2 ⟨hi, by simp [hkey]⟩
        obtain ⟨h1, h2⟩ := survivorFrom_max a s g hget2
        rcases List.mem_cons.1 hig with he | hm
        · exact he ▸ h1
        · exact h2 i hm
      · exact survivorFrom_first a s g hget2

/-- **C2**: the merged result is sorted by weighted score in strictly
descending order — an item never precedes another of strictly greater
score — and the sort is stable: for every score, the items of that score
appear in exactly their relative order in the dedup step's output. -/
theorem mergeResults_ranking (results : List (List TrendingItem)) :
    ((mergeResults results).Pairwise (fun a b => b.score ≤ a.score)) ∧
    (∀ i j : Nat, ∀ hi : i < (mergeResults results).length,
       ∀ hj : j < (mergeResults results).length, i < j →
       ¬ (((mergeResults results).get ⟨i, hi⟩).score <
          ((mergeResults results).get ⟨j, hj⟩).score)) ∧
    (∀ q : Rat, (mergeResults results).filter (fun i => decide (i.score = q)) =
       ((aggregate results).map Prod.snd).filter (fun i => decide (i.score = q))) := by
  have hp : (mergeResults results).Pairwise (fun a b => b.score ≤ a.score) :=
    sortDesc_pairwise ((aggregate results).map Prod.snd)
  refine ⟨hp, ?_, fun q => filter_sortDesc _ q⟩
  intro i j hi hj hij
  have hle := (List.pairwise_iff_getElem.1 hp) i j hi hj hij
  simp only [List.get_eq_getElem]
  exact not_lt_of_le hle

/-- Witness for C1 on the spec's merge scenario (the two `https://b` items
share a group across sources, case-insensitively; the survivor is the
15-score one). -/
theorem mergeResults_dedupe_witness :
    (itemB15 ∈ mergeResults resultsW ∧ itemB8 ∈ resultsW.flatten) ∧
    ((∀ i ∈ resultsW.flatten, strLower i.url = strLower itemB15.url →
        i.score ≤ itemB15.score) ∧
     (resultsW.flatten.filter
         (fun i => decide (strLower i.url = strLower itemB15.url))).find?
         (fun i => decide (itemB15.score ≤ i.score)) = some itemB15) ∧
    ((mergeResults resultsW).map (fun i => strLower i.url)).Nodup ∧
    (∃ t ∈ mergeResults resultsW, strLower t.url = strLower itemB8.url) :=
  ⟨⟨by decide, by decide⟩,
   (mergeResults_dedupe resultsW).2.2 itemB15 (by decide),
   (mergeResults_dedupe resultsW).1,
   (mergeResults_dedupe resultsW).2.1 itemB8 (by decide)⟩

/-- Witness for C2 on the spec's merge scenario: the head of the merged
list outranks the second element, and the score-15 slice is stable. -/
theorem mergeResults_ranking_witness :
    ((mergeResults resultsW).Pairwise (fun a b => b.score ≤ a.score)) ∧
    (¬ (((mergeResults resultsW).get ⟨0, by decide⟩).score <
        ((mergeResults resultsW).get ⟨1, by decide⟩).score)) ∧
    ((mergeResults resultsW).filter (fun i => decide (i.score = 15)) =
       ((aggregate resultsW).map Prod.snd).filter (fun i => decide (i.score = 15))) :=
  ⟨(mergeResults_ranking resultsW).1,
   (mergeResults_ranking resultsW).2.1 0 1 (by decide) (by decide) (by decide),
   (mergeResults_ranking resultsW).2.2 15⟩
